import Mathlib

/-!
Subsplit: the job-intake-and-processing pipeline.

A shallow embedding of `main.go` and `http_server.go`.

* Go strings are Lean `String`s.  Every string the regular expressions and the
  workspace hash see comes out of `json.Unmarshal`, which only produces valid
  UTF-8, so a list of Unicode scalar values is an exact model; `[]byte(s)` is
  the UTF-8 encoding of `s`.  Payloads are only stored, compared and handed to
  the decoder.
* Library calls whose result no property depends on (`json.Unmarshal`, the
  clock, the exit status of the external commands) are fields of `Env`.
  `path.Join` is modelled from the Go library.
* A runtime panic of `split` is modelled by `none`.
* `split` pastes its texts unescaped into the command line of `sh -c`.  When
  all of them are plain (letters, digits and `/ . _ - : @`, and spaces inside
  double quotes) the shell reads the line as the AND-list of the six commands;
  what it does with any other line is a field of `Env`.
* `go sendSlack(..)` starts a goroutine that panics when the request fails; the
  process then ends at a point of the loop that `Env` chooses.
-/

namespace Subsplit

/-! ## Data model (`main.go` lines 23-50) -/

/-- The fields of `config` that the job loop reads. -/
structure config where
  WorkingDirectory : String
  URL : String
  Splits : List String
  SlackURL : String
  RedisPrefix : String
deriving DecidableEq, Repr

/-- The decoded push event, `hook` in `main.go`. -/
structure hook where
  RepositoryURL : String
  Ref : String
deriving DecidableEq, Repr

/-- The split instruction, `splitInstruction` in `main.go`. -/
structure splitInstruction where
  head : String
  tag : String
deriving DecidableEq, Repr

/-- The instruction the job loop builds for a branch: only `head` is set. -/
def Head (n : String) : splitInstruction := { head := n, tag := "" }

/-- The instruction the job loop builds for a tag: only `tag` is set. -/
def Tag (n : String) : splitInstruction := { head := "", tag := n }

/-! ## The two regular expressions (`main.go` lines 71-72)

Both patterns have the shape `lit(.+)$` with `lit` a literal (`\/` is an escaped
slash).  Go's `regexp` has no flags set here, so `.` matches every character but
the newline and `$` matches only at the end of the text.  The search is
unanchored on the left and returns the leftmost match. -/

/-- Consume the literal `lit` at the start of the text; the rest of the text on success. -/
def dropLiteral : List Char → List Char → Option (List Char)
  | [], t => some t
  | _ :: _, [] => none
  | c :: cs, d :: ds => if c = d then dropLiteral cs ds else none

/-- The tail `(.+)$` of the pattern: at least one character, none of them a
newline, up to the end of the text. -/
def dotPlusEnd (t : List Char) : Bool :=
  !t.isEmpty && t.all (fun c => c != '\n')

/-- Try the pattern `lit(.+)$` at the start of `t`; the capture on success. -/
def matchAt (lit t : List Char) : Option (List Char) :=
  match dropLiteral lit t with
  | some r => if dotPlusEnd r then some r else none
  | none => none

/-- Leftmost match of `lit(.+)$` in the text: the whole match and the capture,
or the empty slice (Go's `nil`) when no position matches. -/
def findFrom (lit : List Char) : List Char → List String
  | [] => []
  | c :: t =>
    match matchAt lit (c :: t) with
    | some r => [String.mk (c :: t), String.mk r]
    | none => findFrom lit t

/-- `regexp.MustCompile(lit ++ "(.+)$").FindStringSubmatch(s)`. -/
def FindStringSubmatch (lit s : String) : List String :=
  findFrom lit.data s.data

/-- The literal part of `tagsRegex`. -/
def tagsRegex : String := "refs/tags/"

/-- The literal part of `headsRegex`. -/
def headsRegex : String := "refs/heads/"

/-- The classification branch of the job loop (`main.go` lines 96-107): the
instruction and the start message, or `none` for the skipping branch. -/
def classify (ref : String) : Option (splitInstruction × String) :=
  let tag := FindStringSubmatch tagsRegex ref
  if tag.length = 2 then
    let si : splitInstruction := { head := "", tag := tag.getD 1 "" }
    some (si, "Started: splitting modules for tag " ++ si.tag)
  else
    let head := FindStringSubmatch headsRegex ref
    if head.length = 2 then
      let si : splitInstruction := { head := head.getD 1 "", tag := "" }
      some (si, "Started: splitting modules for branch " ++ si.head)
    else
      none

/-! ## The split executor (`main.go` lines 129-161) -/

/-- One lower-case hexadecimal digit. -/
def hexDigit (n : Nat) : Char :=
  "0123456789abcdef".data.getD n '0'

/-- The verb `%x` applied to a byte slice: two lower-case digits per byte. -/
def hexBytes : List UInt8 → List Char
  | [] => []
  | b :: bs => hexDigit (b.toNat / 16) :: hexDigit (b.toNat % 16) :: hexBytes bs

/-- The conversion `[]byte(s)`: the UTF-8 encoding of the string. -/
def bytes (s : String) : List UInt8 :=
  s.data.flatMap String.utf8EncodeChar

/-- The slice expression `s[:n]` on a string of one-byte characters: a runtime
panic (`none`) when `n` exceeds the length. -/
def sliceTo (s : List Char) (n : Nat) : Option (List Char) :=
  if n ≤ s.length then some (s.take n) else none

/-- `strings.Join(splits, " ")`. -/
def joinSplits (splits : List String) : String :=
  " ".intercalate splits

/-- Line 132: `fmt.Sprintf("%x", []byte(split))[:32]`. -/
def hash (split : String) : Option String :=
  (sliceTo (hexBytes (bytes split)) 32).map String.mk

/-- Lines 137-143: the two filter arguments `(heads, tag)`. -/
def filters (si : splitInstruction) : String × String :=
  let heads := "--heads=\"" ++ si.head ++ "\""
  let tag := "--tags=\"" ++ si.tag ++ "\""
  if si.tag = "" then (heads, "--no-tags") else ("--no-heads", tag)

/-! ### `path.Join` (Go library) -/

/-- The elements of a path: the texts between its slashes. -/
def splitSlash : List Char → List (List Char)
  | [] => [[]]
  | c :: t =>
    if c = '/' then [] :: splitSlash t
    else
      match splitSlash t with
      | [] => [[c]]
      | e :: es => (c :: e) :: es

/-- The output of `path.Clean` while it reads the path: the number of leading
`..` elements and the elements written after them. -/
structure CleanState where
  dotdot : Nat
  elems : List (List Char)

/-- One element read by `path.Clean`: an empty element and `.` are dropped,
`..` removes the last element written (or is kept, in a path that is not
rooted, when there is none), any other element is written. -/
def cleanStep (rooted : Bool) (st : CleanState) (e : List Char) : CleanState :=
  if e = [] ∨ e = ['.'] then st
  else if e = ['.', '.'] then
    if st.elems ≠ [] then { st with elems := st.elems.dropLast }
    else if rooted then st
    else { st with dotdot := st.dotdot + 1 }
  else { st with elems := st.elems ++ [e] }

/-- `path.Clean`. -/
def Clean (path : String) : String :=
  if path = "" then "."
  else
    let rooted : Bool := path.data.head? = some '/'
    let st := (splitSlash path.data).foldl (cleanStep rooted) { dotdot := 0, elems := [] }
    let out := ['/'].intercalate (List.replicate st.dotdot ['.', '.'] ++ st.elems)
    if rooted then String.mk ('/' :: out)
    else if out = [] then "."
    else String.mk out

/-- `path.Join` on two elements: empty elements are ignored, the others are
joined by a slash and the result is cleaned. -/
def pathJoin (a b : String) : String :=
  if a = "" ∧ b = "" then ""
  else if a = "" then Clean b
  else Clean (a ++ "/" ++ b)

/-! ### The command line -/

/-- The six commands of the chain that `split` builds (lines 145-152); `other`
is a command that the shell reads out of a line that is not plain. -/
inductive ShCmd
  | cd (dir : String)
  | subsplitInit (repoUrl : String)
  | subsplitUpdate
  | subsplitPublish (split heads tag : String)
  | rmrf (path : String)
  | other (text : String)
deriving DecidableEq, Repr

/-- The text of each command, as the `fmt.Sprintf` calls of lines 146-151 write it. -/
def ShCmd.render : ShCmd → String
  | .cd dir => "cd " ++ dir
  | .subsplitInit repoUrl => "(git subsplit init " ++ repoUrl ++ " || true)"
  | .subsplitUpdate => "git subsplit update"
  | .subsplitPublish split heads tag =>
    "git subsplit publish \"" ++ split ++ "\" " ++ heads ++ " " ++ tag
  | .rmrf path => "rm -rf " ++ path
  | .other text => text

/-- A character that the shell reads as itself, in a word and inside double quotes. -/
def plainChar (c : Char) : Bool :=
  c.isAlphanum || c == '/' || c == '.' || c == '_' || c == '-' || c == ':' || c == '@'

/-- A text that the shell reads as one word, or as nothing, when it is pasted
unquoted. -/
def plainWord (s : String) : Bool :=
  s.data.all plainChar

/-- A text that the shell reads as itself when it is pasted between double quotes. -/
def plainQuoted (s : String) : Bool :=
  s.data.all (fun c => plainChar c || c == ' ')

/-- The directories that exist, named by absolute paths. -/
abbrev FS := String → Bool

/-- What the program cannot decide by itself: the library calls whose result
is data, and the outcome of the external commands. -/
structure Env where
  /-- The call `json.Unmarshal`: the hook as filled in, and the error if any. -/
  unmarshal : String → hook × Option String
  /-- The hook printed with the verb `%s`. -/
  sprintHook : hook → String
  /-- The directory in which the program runs, an absolute path. -/
  cwd : String
  /-- Whether `os.MkdirAll` leaves the directory in place. -/
  mkdirOk : String → Bool
  /-- Exit status of a command of the chain when the shell runs it. -/
  exitStatus : ShCmd → Nat
  /-- What `sh -c` does with a command line that is not plain, started in a
  directory with the directories given: the commands it runs, its exit status
  and the directories afterwards. -/
  shell : String → String → FS → List ShCmd × Nat × FS
  /-- What becomes of the goroutine of `go sendSlack(url, msg)` for a non-empty
  URL: `none` when the request is answered; `some n` when it fails, the
  goroutine panics (line 216) and the process ends once the loop has produced
  `n` more events. -/
  slackPanic : String → String → Option Nat
  /-- The elapsed time as `Duration.String` prints it. -/
  elapsed : String

/-- Exit status of one element of the chain: `( c || true )` always exits 0. -/
def status (env : Env) : ShCmd → Nat
  | .subsplitInit _ => 0
  | c => env.exitStatus c

/-- The shell's AND-list `c1 && c2 && ...`: the commands it runs, in order, and
the exit status of the list.  A command runs only if every one before it
exited 0. -/
def andList (env : Env) : List ShCmd → List ShCmd × Nat
  | [] => ([], 0)
  | c :: cs =>
    if status env c = 0 then
      let r := andList env cs
      (c :: r.1, r.2)
    else
      ([c], status env c)

/-- The directory that a path names for a process whose working directory is `cwd`. -/
def resolve (cwd path : String) : String :=
  if path.data.head? = some '/' then path else pathJoin cwd path

/-- The shell while it runs the chain: its working directory and the directories. -/
structure ShState where
  cwd : String
  fs : FS

/-- Effect of one command that the shell ran: a successful `cd` changes the
working directory of the shell, a successful `rm -rf` removes the directory
that its argument names from there, the `git` commands leave both alone. -/
def shStep (env : Env) (st : ShState) : ShCmd → ShState
  | .cd dir =>
    if env.exitStatus (.cd dir) = 0 then { st with cwd := resolve st.cwd dir } else st
  | .rmrf path =>
    if env.exitStatus (.rmrf path) = 0 then
      { st with fs := fun p => if p = resolve st.cwd path then false else st.fs p }
    else st
  | _ => st

/-- What an observer sees of one call of `split`. -/
structure SplitRun where
  workingPath : String
  heads : String
  tag : String
  /-- The argument of `sh -c`. -/
  args : String
  /-- The commands that the shell ran. -/
  ran : List ShCmd
  /-- Exit status of the shell; non-zero is the `err != nil` of line 157. -/
  exit : Nat
  /-- The directories after the call. -/
  fs : FS

/-- The function `split`.  `none` is the runtime panic of the slice expression
at line 132, which happens before any directory is made or command run. -/
def split (env : Env) (fs : FS) (workingDir repoUrl : String) (splits : List String)
    (si : splitInstruction) : Option SplitRun :=
  let split := joinSplits splits
  match hash split with
  | none => none
  | some hash =>
    let workingPath := pathJoin workingDir hash
    let dir := resolve env.cwd workingPath
    let fs1 : FS := fun p => if p = dir then fs p || env.mkdirOk workingPath else fs p
    let heads := (filters si).1
    let tag := (filters si).2
    let cmd := [ShCmd.cd workingPath, ShCmd.subsplitInit repoUrl, ShCmd.subsplitUpdate,
      ShCmd.subsplitPublish split heads tag, ShCmd.cd "..", ShCmd.rmrf workingPath]
    let args := " && ".intercalate (cmd.map ShCmd.render)
    let r : List ShCmd × Nat × FS :=
      if plainWord workingPath && plainWord repoUrl && plainQuoted split
          && plainQuoted si.head && plainQuoted si.tag then
        let a := andList env cmd
        (a.1, a.2, (a.1.foldl (shStep env) { cwd := env.cwd, fs := fs1 }).fs)
      else env.shell args env.cwd fs1
    some { workingPath := workingPath, heads := heads, tag := tag, args := args,
           ran := r.1, exit := r.2.1, fs := r.2.2 }

/-! ## The queue: two Redis lists

A Redis list has a head (left) and a tail (right); it is modelled by a Lean
list whose first element is the head. -/

/-- The lists held by the Redis server, by key. -/
abbrev Redis := String → List String

/-- `LPUSH key value`: insert at the head. -/
def LPush (key value : String) (db : Redis) : Redis :=
  fun k => if k = key then value :: db key else db k

/-- `BRPOPLPUSH source destination 0`: take the element at the tail of `source`
and insert it at the head of `destination`, atomically; `none` while `source`
is empty (the call blocks). -/
def BRPopLPush (source destination : String) (db : Redis) : Option (String × Redis) :=
  match (db source).getLast? with
  | none => none
  | some v =>
    let db1 : Redis := fun k => if k = source then (db source).dropLast else db k
    some (v, fun k => if k = destination then v :: db1 destination else db1 k)

/-- Remove the first `n` elements equal to `value`, scanning from the head. -/
def removeFirst : Nat → String → List String → List String
  | 0, _, l => l
  | _ + 1, _, [] => []
  | n + 1, value, x :: l =>
    if x = value then removeFirst n value l else x :: removeFirst (n + 1) value l

/-- `LREM key count value`. -/
def LRem (key : String) (count : Int) (value : String) (db : Redis) : Redis :=
  fun k =>
    if k = key then
      if 0 < count then removeFirst count.toNat value (db key)
      else if count < 0 then (removeFirst (-count).toNat value (db key).reverse).reverse
      else (db key).filter (fun x => x != value)
    else db k

/-- The key of the intake list. -/
def incomingKey (redisPreix : String) : String := redisPreix ++ ":incoming"

/-- The key of the in-flight list. -/
def processingKey (redisPreix : String) : String := redisPreix ++ ":processing"

/-- The intake handler of `http_server.go` line 21 for a request whose body was read. -/
def enqueue (redisPreix content : String) (db : Redis) : Redis :=
  LPush (incomingKey redisPreix) content db

/-- The claim of `main.go` line 76 when the server answers. -/
def claim (redisPreix : String) (db : Redis) : Option (String × Redis) :=
  BRPopLPush (incomingKey redisPreix) (processingKey redisPreix) db

/-! ## The job loop (`main.go` lines 74-126) -/

/-- What one iteration does to the outside world, in program order. -/
inductive Event
  | logInfo (msg : String)
  | logError (msg : String)
  /-- The command `LREM key count value` is sent. -/
  | lrem (key : String) (count : Int) (value : String)
  /-- The statement `go sendSlack(url, msg)`. -/
  | sendSlack (url msg : String)
  | mkdirAll (path : String)
  /-- The call `exec.Command("sh", "-c", args).Run()` and the commands the shell ran. -/
  | run (args : String) (ran : List ShCmd)
  /-- The process dies of a runtime panic. -/
  | panic
  /-- The process dies of the panic of a notification goroutine. -/
  | goroutinePanic
deriving DecidableEq, Repr

/-- The function `skipHook` (lines 192-202). -/
def skipHook (redisPreix hookJSON msg : String) (err : Bool) : List Event :=
  [if err then Event.logError msg else Event.logInfo msg,
   Event.lrem (processingKey redisPreix) 1 hookJSON]

/-- The events of a call of `split` (lines 135, 156-159). -/
def splitEvents (split : String) (r : SplitRun) : List Event :=
  [Event.mkdirAll r.workingPath, Event.run r.args r.ran] ++
    (if r.exit = 0 then []
     else [Event.logError ("Error while splitting " ++ split ++ " : exit status " ++ toString r.exit)])

/-- The rest of the iteration after the statement `go sendSlack(url, msg)`:
`sendSlack` returns at once for an empty URL; otherwise a failed request ends
the process in the middle of the events that follow, if it does so before the
iteration is over.  (A failure of the finish notification comes after the last
event of the iteration.) -/
def afterSend (env : Env) (url msg : String) (rest : List Event) : List Event :=
  match (if url = "" then none else env.slackPanic url msg) with
  | none => rest
  | some n => if n < rest.length then rest.take n ++ [Event.goroutinePanic] else rest

/-- The body of the loop after a claim that returned `hookJSON` (lines 81-125). -/
def processHook (env : Env) (fs : FS) (cfg : config) (hookJSON : String) : List Event :=
  Event.logInfo "Processing start" ::
  let dec := env.unmarshal hookJSON
  let hook := dec.1
  match dec.2 with
  | some _ =>
    skipHook cfg.RedisPrefix hookJSON
      ("Error while unmarshalling the hook : " ++ env.sprintHook hook ++ ".") true
  | none =>
    if hook.RepositoryURL ≠ cfg.URL then
      skipHook cfg.RedisPrefix hookJSON
        ("The repository " ++ hook.RepositoryURL ++ " is not supported.") false
    else
      match classify hook.Ref with
      | none =>
        skipHook cfg.RedisPrefix hookJSON
          ("Skipping request : unexpected reference detected: " ++ hook.Ref) false
      | some (splitInstruction, startMsg) =>
        Event.sendSlack cfg.SlackURL startMsg ::
        afterSend env cfg.SlackURL startMsg
          (match split env fs cfg.WorkingDirectory cfg.URL cfg.Splits splitInstruction with
           | none => [Event.panic]
           | some r =>
             let endMsg := "Finished: splitting modules. It took " ++ env.elapsed
             splitEvents (joinSplits cfg.Splits) r ++
               [Event.lrem (processingKey cfg.RedisPrefix) 1 hookJSON,
                Event.logInfo endMsg,
                Event.sendSlack cfg.SlackURL endMsg])

/-- One iteration of the loop, given what the claim returned: an error text, or
the payload.  On an error the library returns the empty string as the value. -/
def iteration (env : Env) (fs : FS) (cfg : config) (claimed : Except String String) :
    List Event :=
  Event.logInfo "Waiting for a new push to split..." ::
  match claimed with
  | .error err =>
    let hookJSON := ""
    skipHook cfg.RedisPrefix hookJSON
      ("Error while waiting for a message : " ++ err ++ ". Retrying...") true
  | .ok hookJSON => processHook env fs cfg hookJSON

/-- The removals that a list of events sends, in order. -/
def removals : List Event → List (String × Int × String)
  | [] => []
  | Event.lrem key count value :: es => (key, count, value) :: removals es
  | _ :: es => removals es

/-- The server after the `LREM` commands of the events have been carried out. -/
def applyEvents (db : Redis) : List Event → Redis
  | [] => db
  | Event.lrem key count value :: es => applyEvents (LRem key count value db) es
  | _ :: es => applyEvents db es

/-- Whether the split executor was entered: a directory made, a shell started,
or the panic (only `split` panics). -/
def executorInvoked : List Event → Bool
  | [] => false
  | Event.mkdirAll _ :: _ => true
  | Event.run _ _ :: _ => true
  | Event.panic :: _ => true
  | _ :: es => executorInvoked es

/-- Whether a notification was dispatched. -/
def notified : List Event → Bool
  | [] => false
  | Event.sendSlack _ _ :: _ => true
  | _ :: es => notified es

/-- The intake handler run once for each payload, in the order given. -/
def enqueueAll (redisPreix : String) (ps : List String) (db : Redis) : Redis :=
  ps.foldl (fun d p => enqueue redisPreix p d) db

/-- Successive claims by the job loop: the payloads returned, in order, and the
server afterwards; `none` if one of the claims finds the intake list empty. -/
def claimMany (redisPreix : String) : Nat → Redis → Option (List String × Redis)
  | 0, db => some ([], db)
  | n + 1, db =>
    match claim redisPreix db with
    | none => none
    | some (p, db1) => (claimMany redisPreix n db1).map (fun r => (p :: r.1, r.2))

/-! ## The end-to-end scenarios -/

/-- A payload for the repository `https://x/y.git` with the given reference. -/
def payloadFor (ref : String) : String :=
  "\x7b\"repository\":\x7b\"url\":\"https://x/y.git\"\x7d,\"ref\":\"" ++ ref ++ "\"\x7d"

/-- An environment in which every payload decodes to the given reference of the
repository `https://x/y.git`, the program runs in `/srv`, directories can be
made, the external commands exit with the given status, and notifications
are answered. -/
def scenarioEnv (ref : String) (exitStatus : ShCmd → Nat) : Env :=
  { unmarshal := fun _ => ({ RepositoryURL := "https://x/y.git", Ref := ref }, none),
    sprintHook := fun h => h.Ref,
    cwd := "/srv",
    mkdirOk := fun _ => true,
    exitStatus := exitStatus,
    shell := fun _ _ fs => ([], 0, fs),
    slackPanic := fun _ _ => none,
    elapsed := "1s" }

/-- The configuration of the scenarios, with the given split set. -/
def scenarioCfg (splits : List String) : config :=
  { WorkingDirectory := "/tmp/ws", URL := "https://x/y.git", Splits := splits,
    SlackURL := "", RedisPrefix := "subsplit" }

/-! ## Facts about the pattern matcher -/

theorem dropLiteral_eq_some (lit t r : List Char) :
    dropLiteral lit t = some r ↔ t = lit ++ r := by
  induction lit generalizing t with
  | nil => simp [dropLiteral, eq_comm]
  | cons c cs ih =>
    cases t with
    | nil => simp [dropLiteral]
    | cons d ds =>
      by_cases h : c = d
      · subst h
        simp [dropLiteral, ih]
      · have h2 : ¬ d = c := fun e => h e.symm
        simp [dropLiteral, h, h2]

theorem matchAt_eq_some (lit t r : List Char) :
    matchAt lit t = some r ↔ t = lit ++ r ∧ dotPlusEnd r = true := by
  unfold matchAt
  cases hd : dropLiteral lit t with
  | none =>
    constructor
    · intro h
      cases h
    · rintro ⟨h, -⟩
      rw [(dropLiteral_eq_some lit t r).2 h] at hd
      cases hd
  | some q =>
    have hq := (dropLiteral_eq_some lit t q).1 hd
    by_cases hp : dotPlusEnd q = true
    · simp only [hp, if_true, Option.some.injEq]
      constructor
      · rintro rfl
        exact ⟨hq, hp⟩
      · rintro ⟨h, -⟩
        rw [hq] at h
        exact List.append_cancel_left h
    · have hp2 : dotPlusEnd q = false := by simpa using hp
      simp only [hp2]
      constructor
      · intro h
        cases h
      · rintro ⟨h, h2⟩
        rw [hq] at h
        rw [← List.append_cancel_left h, hp2] at h2
        cases h2

theorem matchAt_eq_none (lit t : List Char) :
    matchAt lit t = none ↔ ∀ r, t = lit ++ r → dotPlusEnd r = false := by
  constructor
  · intro h r hr
    by_contra hp
    have := (matchAt_eq_some lit t r).2 ⟨hr, by simpa using hp⟩
    rw [h] at this
    cases this
  · intro h
    cases hm : matchAt lit t with
    | none => rfl
    | some r =>
      have := (matchAt_eq_some lit t r).1 hm
      rw [h r this.1] at this
      exact absurd this.2 (by simp)

/-- The search finds nothing exactly when no suffix of the text is the literal
followed by a non-empty newline-free remainder. -/
theorem findFrom_eq_nil (lit s : List Char) :
    findFrom lit s = [] ↔ ∀ a r, s = a ++ (lit ++ r) → dotPlusEnd r = false := by
  induction s with
  | nil =>
    simp only [findFrom, true_iff]
    intro a r h
    have h2 : lit ++ r = [] := (List.append_eq_nil.1 h.symm).2
    have h3 : r = [] := (List.append_eq_nil.1 h2).2
    subst h3
    rfl
  | cons c t ih =>
    unfold findFrom
    cases hm : matchAt lit (c :: t) with
    | some r =>
      have := (matchAt_eq_some lit (c :: t) r).1 hm
      constructor
      · intro h
        cases h
      · intro h
        have h2 := h [] r (by simpa using this.1)
        rw [this.2] at h2
        cases h2
    | none =>
      simp only
      rw [ih]
      have hn := (matchAt_eq_none lit (c :: t)).1 hm
      constructor
      · intro h a r har
        cases a with
        | nil => exact hn r (by simpa using har)
        | cons x a =>
          simp only [List.cons_append, List.cons.injEq] at har
          exact h a r har.2
      · intro h a r har
        exact h (c :: a) r (by simp [har])

/-- A match is a slice of exactly two strings. -/
theorem findFrom_length (lit s : List Char) :
    (findFrom lit s).length = 2 ↔ findFrom lit s ≠ [] := by
  induction s with
  | nil => simp [findFrom]
  | cons c t ih =>
    unfold findFrom
    cases hm : matchAt lit (c :: t) with
    | some r => simp
    | none => simpa using ih

/-- A text that starts with the literal and goes on with a non-empty
newline-free remainder matches at position 0, capturing the remainder. -/
theorem findFrom_literal (lit r : List Char) (h : dotPlusEnd r = true) :
    findFrom lit (lit ++ r) = [String.mk (lit ++ r), String.mk r] := by
  have hm := (matchAt_eq_some lit (lit ++ r) r).2 ⟨rfl, h⟩
  cases hl : lit ++ r with
  | nil =>
    have h3 : r = [] := (List.append_eq_nil.1 hl).2
    subst h3
    simp [dotPlusEnd] at h
  | cons c t =>
    rw [hl] at hm
    simp [findFrom, hm]

/-- A match comes from the leftmost suffix made of the literal and a non-empty
newline-free remainder, and the capture is that remainder. -/
theorem findFrom_ne_nil (lit s : List Char) (h : findFrom lit s ≠ []) :
    ∃ a r, s = a ++ (lit ++ r) ∧ dotPlusEnd r = true ∧
      findFrom lit s = [String.mk (lit ++ r), String.mk r] := by
  induction s with
  | nil => simp [findFrom] at h
  | cons c t ih =>
    unfold findFrom at h ⊢
    cases hm : matchAt lit (c :: t) with
    | some r =>
      have hr := (matchAt_eq_some lit (c :: t) r).1 hm
      refine ⟨[], r, by simpa using hr.1, hr.2, ?_⟩
      simp only
      rw [hr.1]
    | none =>
      rw [hm] at h
      simp only at h ⊢
      obtain ⟨a, r, h1, h2, h3⟩ := ih h
      exact ⟨c :: a, r, by simp [h1], h2, h3⟩

theorem dotPlusEnd_iff (r : List Char) :
    dotPlusEnd r = true ↔ r ≠ [] ∧ '\n' ∉ r := by
  cases r with
  | nil => simp [dotPlusEnd]
  | cons c t =>
    simp only [dotPlusEnd, List.isEmpty_cons, Bool.not_false, Bool.true_and, List.all_eq_true,
      bne_iff_ne, ne_eq, not_false_eq_true, true_and, reduceCtorEq]
    constructor
    · intro h hm
      exact h _ hm rfl
    · intro h x hx e
      exact h (e ▸ hx)

theorem data_ne_nil (X : String) : X.data ≠ [] ↔ X ≠ "" := by
  rw [Ne, Ne, String.ext_iff]

/-- The tag pattern cannot start inside the literal `refs/heads/`. -/
theorem findFrom_tags_heads (x : List Char) :
    findFrom tagsRegex.data (headsRegex.data ++ x) = findFrom tagsRegex.data x := by
  show findFrom ['r', 'e', 'f', 's', '/', 't', 'a', 'g', 's', '/']
    (['r', 'e', 'f', 's', '/', 'h', 'e', 'a', 'd', 's', '/'] ++ x) = _
  simp [findFrom, matchAt, dropLiteral]
  rfl

/-- The leftmost occurrence test on strings: the tag pattern misses `X` exactly
when nothing follows any occurrence of `refs/tags/` in it (for `X` without newline). -/
theorem findFrom_tags_eq_nil (X : String) (hnl : '\n' ∉ X.data) :
    findFrom tagsRegex.data X.data = [] ↔ ∀ a b : String, X = a ++ "refs/tags/" ++ b → b = "" := by
  rw [findFrom_eq_nil]
  constructor
  · intro h a b hab
    have h1 := h a.data b.data (by rw [hab]; simp [tagsRegex])
    by_contra hb
    have h2 : dotPlusEnd b.data = true := by
      rw [dotPlusEnd_iff]
      refine ⟨(data_ne_nil b).2 hb, fun hm => hnl ?_⟩
      rw [hab]
      simp [hm]
    rw [h1] at h2
    cases h2
  · intro h a r har
    have h1 := h (String.mk a) (String.mk r) (by
      rw [String.ext_iff, har]
      simp [tagsRegex])
    have h2 : r = [] := by simpa [String.ext_iff] using h1
    subst h2
    rfl

/-- C1 (amended): for every non-empty name `X` without a newline, the reference
`refs/tags/X` is classified as `Tag(X)`, and the reference `refs/heads/X` is
classified as `Head(X)` exactly when no occurrence of `refs/tags/` in `X` is
followed by a character (otherwise the tag pattern, tried first, matches). -/
theorem classify_wellformed (X : String) (hne : X ≠ "") (hnl : '\n' ∉ X.data) :
    classify ("refs/tags/" ++ X) = some (Tag X, "Started: splitting modules for tag " ++ X) ∧
    (classify ("refs/heads/" ++ X)
        = some (Head X, "Started: splitting modules for branch " ++ X) ↔
      ∀ a b : String, X = a ++ "refs/tags/" ++ b → b = "") := by
  have hd : dotPlusEnd X.data = true := (dotPlusEnd_iff _).2 ⟨(data_ne_nil X).2 hne, hnl⟩
  have ht : FindStringSubmatch tagsRegex ("refs/tags/" ++ X) = ["refs/tags/" ++ X, X] := by
    have := findFrom_literal tagsRegex.data X.data hd
    simpa [FindStringSubmatch, tagsRegex, String.ext_iff] using this
  have hh : FindStringSubmatch headsRegex ("refs/heads/" ++ X) = ["refs/heads/" ++ X, X] := by
    have := findFrom_literal headsRegex.data X.data hd
    simpa [FindStringSubmatch, headsRegex, String.ext_iff] using this
  have hth : FindStringSubmatch tagsRegex ("refs/heads/" ++ X) = findFrom tagsRegex.data X.data := by
    have := findFrom_tags_heads X.data
    simpa [FindStringSubmatch, headsRegex] using this
  constructor
  · simp [classify, ht, Tag]
  · rw [← findFrom_tags_eq_nil X hnl]
    by_cases hn : findFrom tagsRegex.data X.data = []
    · simp [classify, hth, hn, hh, Head]
    · have hl := (findFrom_length tagsRegex.data X.data).2 hn
      simp only [classify, hth, hl, if_true, hn, iff_false]
      intro h
      have h2 := congrArg (fun o => o.map (fun q => q.1.head)) h
      simp only [Option.map_some', Head] at h2
      exact hne (Option.some.inj h2).symm

/-- C1: the claim as written fails: the branch name `refs/tags/y` is not empty,
yet `refs/heads/refs/tags/y` is classified as the tag `y`, not as a head; and
the name made of `a`, a newline and `b` is not empty, yet the reference
`refs/tags/` followed by it is not classified at all. -/
theorem classify_head_counterexample :
    "refs/tags/y" ≠ "" ∧
    classify ("refs/heads/" ++ "refs/tags/y")
      = some (Tag "y", "Started: splitting modules for tag y") ∧
    (classify ("refs/heads/" ++ "refs/tags/y")).map Prod.fst ≠ some (Head "refs/tags/y") ∧
    "a\nb" ≠ "" ∧
    classify ("refs/tags/" ++ "a\nb") = none := by
  refine ⟨by decide, by decide, by decide, by decide, by decide⟩

/-- Witness for C1: `refs/heads/main` yields `Head("main")`. -/
theorem classify_wellformed_witness :
    classify ("refs/tags/" ++ "main") = some (Tag "main", "Started: splitting modules for tag main") ∧
    classify ("refs/heads/" ++ "main")
      = some (Head "main", "Started: splitting modules for branch main") :=
  have h := classify_wellformed "main" (by decide) (by decide)
  ⟨h.1, h.2.2 (by
    intro a b hab
    by_contra hb
    have h1 := congrArg String.length hab
    have h2 : 0 < b.length := by
      cases b with
      | mk d =>
        cases d with
        | nil => exact absurd rfl hb
        | cons c t => simp [String.length]
    simp only [String.length_append] at h1
    have h3 : "main".length = 4 := by decide
    have h4 : "refs/tags/".length = 10 := by decide
    omega)⟩

/-- The search on strings: nothing is found exactly when every occurrence of the
literal is followed by nothing or by a remainder that holds a newline. -/
theorem FindStringSubmatch_eq_nil (lit ref : String) :
    FindStringSubmatch lit ref = [] ↔
      ∀ a X : String, ref = a ++ lit ++ X → X = "" ∨ '\n' ∈ X.data := by
  unfold FindStringSubmatch
  rw [findFrom_eq_nil]
  constructor
  · intro h a X hab
    have h1 := h a.data X.data (by rw [hab]; simp)
    by_contra hc
    rw [not_or] at hc
    have h2 := (dotPlusEnd_iff X.data).2 ⟨(data_ne_nil X).2 hc.1, hc.2⟩
    rw [h1] at h2
    cases h2
  · intro h a r har
    have h1 := h (String.mk a) (String.mk r) (by
      rw [String.ext_iff, har]
      simp)
    cases hd : dotPlusEnd r with
    | false => rfl
    | true =>
      have h2 := (dotPlusEnd_iff r).1 hd
      rcases h1 with h1 | h1
      · exact absurd (by simpa [String.ext_iff] using h1) h2.1
      · exact absurd h1 h2.2

theorem classify_eq_none (ref : String) :
    classify ref = none ↔
      FindStringSubmatch tagsRegex ref = [] ∧ FindStringSubmatch headsRegex ref = [] := by
  have ht := findFrom_length tagsRegex.data ref.data
  have hh := findFrom_length headsRegex.data ref.data
  unfold classify FindStringSubmatch
  by_cases h1 : findFrom tagsRegex.data ref.data = []
  · by_cases h2 : findFrom headsRegex.data ref.data = []
    · simp [h1, h2]
    · simp [h1, h2, hh.2 h2]
  · simp [h1, ht.2 h1]

/-- C2 (amended): the classifier yields Invalid exactly when the reference has
no suffix `refs/tags/X` or `refs/heads/X` with `X` non-empty and free of
newlines (the patterns are not anchored on the left, so characters before
`refs/` do not prevent a match); and for an Invalid reference of a decoded
payload of the configured repository the job is skipped: the iteration logs
and removes the payload from the in-flight list, and nothing else. -/
theorem classify_invalid (ref : String) :
    (classify ref = none ↔
      ∀ a X : String, ref = a ++ "refs/tags/" ++ X ∨ ref = a ++ "refs/heads/" ++ X →
        X = "" ∨ '\n' ∈ X.data) ∧
    (classify ref = none → ∀ (env : Env) (fs : FS) (cfg : config) (hookJSON : String),
        env.unmarshal hookJSON = ({ RepositoryURL := cfg.URL, Ref := ref }, none) →
        processHook env fs cfg hookJSON =
          [Event.logInfo "Processing start",
           Event.logInfo ("Skipping request : unexpected reference detected: " ++ ref),
           Event.lrem (processingKey cfg.RedisPrefix) 1 hookJSON]) := by
  constructor
  · rw [classify_eq_none, FindStringSubmatch_eq_nil, FindStringSubmatch_eq_nil]
    constructor
    · rintro ⟨h1, h2⟩ a X (h | h)
      · exact h1 a X h
      · exact h2 a X h
    · intro h
      exact ⟨fun a X e => h a X (Or.inl e), fun a X e => h a X (Or.inr e)⟩
  · intro hc env fs cfg hookJSON hdec
    simp [processHook, hdec, hc, skipHook]

/-- C2: the claim as written fails: `xrefs/heads/main` is not, as a whole, of
the form `refs/tags/X` or `refs/heads/X`, yet it is classified as `Head("main")`. -/
theorem classify_unanchored_match :
    (¬ ∃ X : String, "xrefs/heads/main" = "refs/tags/" ++ X ∨
        "xrefs/heads/main" = "refs/heads/" ++ X) ∧
    classify "xrefs/heads/main"
      = some (Head "main", "Started: splitting modules for branch main") := by
  constructor
  · rintro ⟨X, h | h⟩
    · have h1 := congrArg (fun s => s.data.head?) h
      simp at h1
    · have h1 := congrArg (fun s => s.data.head?) h
      simp at h1
  · decide

/-- Witness for C2: `refs/pull/3/merge`, the empty reference and `refs/heads/`
are Invalid, and the pull-request payload is only logged and removed. -/
theorem classify_invalid_witness :
    classify "refs/pull/3/merge" = none ∧ classify "" = none ∧ classify "refs/heads/" = none ∧
    processHook (scenarioEnv "refs/pull/3/merge" (fun _ => 0)) (fun _ => false)
        (scenarioCfg ["pkgA", "pkgB"]) (payloadFor "refs/pull/3/merge")
      = [Event.logInfo "Processing start",
         Event.logInfo ("Skipping request : unexpected reference detected: " ++ "refs/pull/3/merge"),
         Event.lrem (processingKey "subsplit") 1 (payloadFor "refs/pull/3/merge")] :=
  ⟨by decide, by decide, by decide,
   (classify_invalid "refs/pull/3/merge").2 (by decide) _ _ _ _ rfl⟩

/-! ## Facts about the workspace hash -/

theorem hexBytes_length (bs : List UInt8) : (hexBytes bs).length = 2 * bs.length := by
  induction bs with
  | nil => rfl
  | cons b bs ih => simp [hexBytes, ih]; omega

theorem hexBytes_take (bs : List UInt8) (n : Nat) :
    (hexBytes bs).take (2 * n) = hexBytes (bs.take n) := by
  induction bs generalizing n with
  | nil => simp [hexBytes]
  | cons b bs ih =>
    cases n with
    | zero => simp [hexBytes]
    | succ n =>
      have : 2 * (n + 1) = (2 * n + 1) + 1 := by omega
      rw [this]
      simp [hexBytes, ih]

/-- The slice expression of line 132 succeeds exactly on joined lists of at
least 16 bytes, and then keeps the digits of the first 16 bytes. -/
theorem hash_eq_some (split : String) (h : 16 ≤ (bytes split).length) :
    hash split = some (String.mk (hexBytes ((bytes split).take 16))) := by
  have hl := hexBytes_length (bytes split)
  have ht := hexBytes_take (bytes split) 16
  have h32 : 32 ≤ (hexBytes (bytes split)).length := by omega
  simp only [hash, sliceTo, h32, if_true, Option.map_some']
  rw [← ht]

theorem hash_eq_none (split : String) (h : (bytes split).length < 16) : hash split = none := by
  have hl := hexBytes_length (bytes split)
  have h32 : ¬ 32 ≤ (hexBytes (bytes split)).length := by omega
  simp [hash, sliceTo, h32]

/-! ## Facts about `path.Join` -/

theorem split_workingPath (env : Env) (fs : FS) (workingDir repoUrl : String)
    (splits : List String) (si : splitInstruction) :
    (split env fs workingDir repoUrl splits si).map (fun r => r.workingPath)
      = (hash (joinSplits splits)).map (pathJoin workingDir) := by
  cases hh : hash (joinSplits splits) with
  | none => simp [split, hh]
  | some h => simp [split, hh]

/-- C4: with the split set of the end-to-end scenario the joined path list
`pkgA pkgB` has 9 bytes, its hexadecimal encoding 18 characters, and the slice
expression `[:32]` of line 132 panics: `split` computes no workspace path and
runs nothing, whatever the environment and the instruction. -/
theorem split_short_split_set_panics (env : Env) (fs : FS) (workingDir repoUrl : String)
    (si : splitInstruction) :
    (hexBytes (bytes (joinSplits ["pkgA", "pkgB"]))).length = 18 ∧
    split env fs workingDir repoUrl ["pkgA", "pkgB"] si = none := by
  have h : hash (joinSplits ["pkgA", "pkgB"]) = none := by decide
  exact ⟨by decide, by simp [split, h]⟩

theorem heads_ne_sentinel (x : String) : "--heads=\"" ++ x ++ "\"" ≠ "--no-heads" := by
  intro h
  have h1 := congrArg (fun s => s.data.take 3) h
  simp at h1

theorem tags_ne_sentinel (x : String) : "--tags=\"" ++ x ++ "\"" ≠ "--no-tags" := by
  intro h
  have h1 := congrArg (fun s => s.data.take 3) h
  simp at h1

theorem classify_some (ref : String) (si : splitInstruction) (msg : String)
    (h : classify ref = some (si, msg)) :
    ∃ n, n ≠ "" ∧ (si = Head n ∨ si = Tag n) := by
  unfold classify FindStringSubmatch at h
  by_cases h1 : findFrom tagsRegex.data ref.data = []
  · by_cases h2 : findFrom headsRegex.data ref.data = []
    · simp [h1, h2] at h
    · obtain ⟨a, r, -, hr, he⟩ := findFrom_ne_nil _ _ h2
      simp only [h1, he] at h
      simp at h
      refine ⟨String.mk r, ?_, Or.inl ?_⟩
      · rw [← data_ne_nil]
        exact ((dotPlusEnd_iff r).1 hr).1
      · rw [← h.1]
        rfl
  · obtain ⟨a, r, -, hr, he⟩ := findFrom_ne_nil _ _ h1
    simp only [he] at h
    simp at h
    refine ⟨String.mk r, ?_, Or.inr ?_⟩
    · rw [← data_ne_nil]
      exact ((dotPlusEnd_iff r).1 hr).1
    · rw [← h.1]
      rfl

/-- The record that `split` returns when the hash is computed. -/
theorem split_eq_some (env : Env) (fs : FS) (workingDir repoUrl : String)
    (splits : List String) (si : splitInstruction) (r : SplitRun)
    (h : split env fs workingDir repoUrl splits si = some r) :
    ∃ hs, hash (joinSplits splits) = some hs ∧
      r.workingPath = pathJoin workingDir hs ∧
      r.heads = (filters si).1 ∧ r.tag = (filters si).2 ∧
      r.args = " && ".intercalate
        ["cd " ++ r.workingPath,
         "(git subsplit init " ++ repoUrl ++ " || true)",
         "git subsplit update",
         "git subsplit publish \"" ++ joinSplits splits ++ "\" " ++ r.heads ++ " " ++ r.tag,
         "cd ..",
         "rm -rf " ++ r.workingPath] := by
  cases hh : hash (joinSplits splits) with
  | none => simp [split, hh] at h
  | some hs =>
    simp only [split, hh, Option.some.injEq] at h
    subst h
    exact ⟨hs, rfl, rfl, rfl, rfl, rfl⟩

/-- On a plain command line the shell runs the AND-list of the six commands,
starting in the directory of the program. -/
theorem split_plain_run (env : Env) (fs : FS) (workingDir repoUrl : String)
    (splits : List String) (si : splitInstruction) (r : SplitRun)
    (h : split env fs workingDir repoUrl splits si = some r)
    (hplain : plainWord r.workingPath = true ∧ plainWord repoUrl = true ∧
      plainQuoted (joinSplits splits) = true ∧ plainQuoted si.head = true ∧
      plainQuoted si.tag = true) :
    r.ran = (andList env
        [ShCmd.cd r.workingPath, ShCmd.subsplitInit repoUrl, ShCmd.subsplitUpdate,
         ShCmd.subsplitPublish (joinSplits splits) r.heads r.tag, ShCmd.cd "..",
         ShCmd.rmrf r.workingPath]).1 ∧
    r.fs = (r.ran.foldl (shStep env) (ShState.mk env.cwd (fun p =>
      if p = resolve env.cwd r.workingPath then fs p || env.mkdirOk r.workingPath
      else fs p))).fs := by
  cases hh : hash (joinSplits splits) with
  | none => simp [split, hh] at h
  | some hs =>
    simp only [split, hh, Option.some.injEq] at h
    subst h
    obtain ⟨p1, p2, p3, p4, p5⟩ := hplain
    simp only at p1
    simp only [p1, p2, p3, p4, p5, Bool.and_self, if_true]
    constructor <;> first | rfl | trivial

/-- C5 (amended): on a command line whose pasted texts are plain, the shell runs
the six commands in order up to the first one that exits non-zero (a failing
`git subsplit init` is tolerated) and skips the ones after it; so the
`rm -rf <workspace>` step is run exactly when `cd` into the workspace,
`git subsplit update`, `git subsplit publish` and `cd ..` all exit 0; when it
is not run the workspace stays as `os.MkdirAll` left it; when it runs and
succeeds, on a workspace with an absolute path, the workspace is gone. -/
theorem split_cleanup_iff (env : Env) (fs : FS) (workingDir repoUrl : String)
    (splits : List String) (si : splitInstruction) (r : SplitRun)
    (h : split env fs workingDir repoUrl splits si = some r)
    (hplain : plainWord r.workingPath = true ∧ plainWord repoUrl = true ∧
      plainQuoted (joinSplits splits) = true ∧ plainQuoted si.head = true ∧
      plainQuoted si.tag = true) :
    r.ran =
      (if env.exitStatus (ShCmd.cd r.workingPath) ≠ 0 then
        [ShCmd.cd r.workingPath]
      else if env.exitStatus ShCmd.subsplitUpdate ≠ 0 then
        [ShCmd.cd r.workingPath, ShCmd.subsplitInit repoUrl, ShCmd.subsplitUpdate]
      else if env.exitStatus (ShCmd.subsplitPublish (joinSplits splits) r.heads r.tag) ≠ 0 then
        [ShCmd.cd r.workingPath, ShCmd.subsplitInit repoUrl, ShCmd.subsplitUpdate,
         ShCmd.subsplitPublish (joinSplits splits) r.heads r.tag]
      else if env.exitStatus (ShCmd.cd "..") ≠ 0 then
        [ShCmd.cd r.workingPath, ShCmd.subsplitInit repoUrl, ShCmd.subsplitUpdate,
         ShCmd.subsplitPublish (joinSplits splits) r.heads r.tag, ShCmd.cd ".."]
      else
        [ShCmd.cd r.workingPath, ShCmd.subsplitInit repoUrl, ShCmd.subsplitUpdate,
         ShCmd.subsplitPublish (joinSplits splits) r.heads r.tag, ShCmd.cd "..",
         ShCmd.rmrf r.workingPath]) ∧
    (ShCmd.rmrf r.workingPath ∈ r.ran ↔
      env.exitStatus (ShCmd.cd r.workingPath) = 0 ∧
      env.exitStatus ShCmd.subsplitUpdate = 0 ∧
      env.exitStatus (ShCmd.subsplitPublish (joinSplits splits) r.heads r.tag) = 0 ∧
      env.exitStatus (ShCmd.cd "..") = 0) ∧
    (ShCmd.rmrf r.workingPath ∉ r.ran →
      r.fs (resolve env.cwd r.workingPath)
        = (fs (resolve env.cwd r.workingPath) || env.mkdirOk r.workingPath)) ∧
    (r.workingPath.data.head? = some '/' → ShCmd.rmrf r.workingPath ∈ r.ran →
      env.exitStatus (ShCmd.rmrf r.workingPath) = 0 → r.fs r.workingPath = false) := by
  obtain ⟨hran, hfs⟩ := split_plain_run env fs workingDir repoUrl splits si r h hplain
  rw [hfs, hran]
  by_cases c1 : env.exitStatus (ShCmd.cd r.workingPath) = 0 <;>
  by_cases c2 : env.exitStatus ShCmd.subsplitUpdate = 0 <;>
  by_cases c3 : env.exitStatus (ShCmd.subsplitPublish (joinSplits splits) r.heads r.tag) = 0 <;>
  by_cases c4 : env.exitStatus (ShCmd.cd "..") = 0 <;>
  by_cases c5 : env.exitStatus (ShCmd.rmrf r.workingPath) = 0 <;>
  first
  | (simp [andList, status, shStep, c1, c2, c3, c4, c5]; done)
  | (simp [andList, status, shStep, c1, c2, c3, c4, c5]
     intro habs
     simp [resolve, habs])

/-- C5: the claim as written fails: when `git subsplit update` exits 1 the shell
stops after it, `rm -rf` is not run and the workspace still exists on return. -/
theorem split_failed_update_keeps_workspace :
    (split (scenarioEnv "refs/heads/main" (fun c => if c = ShCmd.subsplitUpdate then 1 else 0))
        (fun _ => false) "/tmp/ws" "https://x/y.git" ["src/Modules/Core", "src/Modules/Blog"]
        (Head "main")).map
      (fun r => (r.ran, r.exit, r.fs r.workingPath))
    = some ([ShCmd.cd "/tmp/ws/7372632f4d6f64756c65732f436f7265",
              ShCmd.subsplitInit "https://x/y.git", ShCmd.subsplitUpdate], 1, true) := by
  decide

/-- Witness for C5: when every command exits 0 the removal runs and the
workspace is gone. -/
theorem split_cleanup_iff_witness :
    ∃ r, split (scenarioEnv "refs/heads/main" (fun _ => 0)) (fun _ => false) "/tmp/ws"
        "https://x/y.git" ["src/Modules/Core", "src/Modules/Blog"] (Head "main") = some r ∧
      ShCmd.rmrf r.workingPath ∈ r.ran ∧ r.fs r.workingPath = false := by
  cases hr : split (scenarioEnv "refs/heads/main" (fun _ => 0)) (fun _ => false) "/tmp/ws"
        "https://x/y.git" ["src/Modules/Core", "src/Modules/Blog"] (Head "main") with
  | none =>
    have h1 : (split (scenarioEnv "refs/heads/main" (fun _ => 0)) (fun _ => false) "/tmp/ws"
        "https://x/y.git" ["src/Modules/Core", "src/Modules/Blog"] (Head "main")).isSome = true := by
      decide
    rw [hr] at h1
    cases h1
  | some r =>
    have hp := congrArg (Option.map (fun q => q.workingPath)) hr
    rw [split_workingPath] at hp
    have hp2 : r.workingPath = "/tmp/ws/7372632f4d6f64756c65732f436f7265" :=
      (Option.some.inj (hp.symm.trans (by decide)))
    have h := split_cleanup_iff _ _ _ _ _ _ r hr
      ⟨by rw [hp2]; decide, by decide, by decide, by decide, by decide⟩
    have hin := h.2.1.2 ⟨rfl, rfl, rfl, rfl⟩
    exact ⟨r, rfl, hin, h.2.2.2 (by rw [hp2]; decide) hin rfl⟩

/-- C6: the two filter arguments of the publish command are determined by the
instruction alone: `Head(n)` gives `--heads="n"` with `--no-tags`, `Tag(n)`
gives `--no-heads` with `--tags="n"`; for every instruction the pair is one of
these two shapes, an active filter is never a sentinel, so exactly one of the
two is active; the pair is what the publish command of `split` carries; and
every instruction the job loop passes to `split` is `Head(m)` or `Tag(m)` with
`m` non-empty. -/
theorem filters_exclusive (si : splitInstruction) (n : String) (hn : n ≠ "") :
    filters (Head n) = ("--heads=\"" ++ n ++ "\"", "--no-tags") ∧
    filters (Tag n) = ("--no-heads", "--tags=\"" ++ n ++ "\"") ∧
    (filters si = ("--heads=\"" ++ si.head ++ "\"", "--no-tags") ∨
      filters si = ("--no-heads", "--tags=\"" ++ si.tag ++ "\"")) ∧
    (∀ x : String, "--heads=\"" ++ x ++ "\"" ≠ "--no-heads" ∧
      "--tags=\"" ++ x ++ "\"" ≠ "--no-tags") ∧
    (((filters si).1 = "--no-heads" ∧ (filters si).2 ≠ "--no-tags") ∨
      ((filters si).1 ≠ "--no-heads" ∧ (filters si).2 = "--no-tags")) ∧
    (∀ (env : Env) (fs : FS) (workingDir repoUrl : String) (splits : List String)
        (r : SplitRun), split env fs workingDir repoUrl splits si = some r →
      (r.heads, r.tag) = filters si ∧
      r.args = " && ".intercalate
        ["cd " ++ r.workingPath,
         "(git subsplit init " ++ repoUrl ++ " || true)",
         "git subsplit update",
         "git subsplit publish \"" ++ joinSplits splits ++ "\" " ++ (filters si).1 ++ " "
           ++ (filters si).2,
         "cd ..",
         "rm -rf " ++ r.workingPath]) ∧
    (∀ (ref : String) (i : splitInstruction) (msg : String), classify ref = some (i, msg) →
      ∃ m, m ≠ "" ∧ (i = Head m ∨ i = Tag m)) := by
  refine ⟨by simp [filters, Head], by simp [filters, Tag, hn], ?_,
    fun x => ⟨heads_ne_sentinel x, tags_ne_sentinel x⟩, ?_, ?_, classify_some⟩
  · by_cases h : si.tag = ""
    · simp [filters, h]
    · simp [filters, h]
  · by_cases h : si.tag = ""
    · right
      simp only [filters, h, if_true]
      exact ⟨heads_ne_sentinel _, trivial⟩
    · left
      simp only [filters, h, if_false]
      exact ⟨trivial, tags_ne_sentinel _⟩
  · intro env fs workingDir repoUrl splits r hr
    obtain ⟨hs, -, -, h1, h2, h3⟩ := split_eq_some env fs workingDir repoUrl splits si r hr
    refine ⟨by rw [h1, h2], ?_⟩
    rw [h3, h1, h2]

/-- Witness for C6: the instructions `Head("main")` and `Tag("v1.0")`. -/
theorem filters_exclusive_witness :
    filters (Head "main") = ("--heads=\"main\"", "--no-tags") ∧
    filters (Tag "v1.0") = ("--no-heads", "--tags=\"v1.0\"") :=
  have h := filters_exclusive (Head "main") "v1.0" (by decide)
  ⟨by decide, h.2.1⟩

theorem removals_append (xs ys : List Event) :
    removals (xs ++ ys) = removals xs ++ removals ys := by
  induction xs with
  | nil => rfl
  | cons e es ih => cases e <;> simp [removals, ih]

theorem removals_splitEvents (split : String) (r : SplitRun) :
    removals (splitEvents split r) = [] := by
  unfold splitEvents
  by_cases h : r.exit = 0 <;> simp [h, removals]

theorem afterSend_quiet (env : Env) (url msg : String) (rest : List Event)
    (h : url = "" ∨ env.slackPanic url msg = none) : afterSend env url msg rest = rest := by
  unfold afterSend
  rcases h with h | h
  · simp [h]
  · by_cases hu : url = ""
    · simp [hu]
    · simp [hu, h]

/-- Where the hash can be computed and the start notification is answered (or
none is configured), and on every skipping path, one iteration sends exactly
one removal, of the claimed payload, with count 1. -/
theorem iteration_removes_once (env : Env) (fs : FS) (cfg : config) (hookJSON : String)
    (hq : cfg.SlackURL = "" ∨ ∀ msg, env.slackPanic cfg.SlackURL msg = none)
    (h : 16 ≤ (bytes (joinSplits cfg.Splits)).length ∨ (env.unmarshal hookJSON).2 ≠ none ∨
      (env.unmarshal hookJSON).1.RepositoryURL ≠ cfg.URL ∨
      classify (env.unmarshal hookJSON).1.Ref = none) :
    removals (iteration env fs cfg (.ok hookJSON))
      = [(processingKey cfg.RedisPrefix, 1, hookJSON)] := by
  simp only [iteration, processHook, removals]
  cases hd : (env.unmarshal hookJSON).2 with
  | some e => simp [skipHook, removals]
  | none =>
    by_cases hu : (env.unmarshal hookJSON).1.RepositoryURL = cfg.URL
    · cases hc : classify (env.unmarshal hookJSON).1.Ref with
      | none => simp [hu, skipHook, removals]
      | some q =>
        obtain ⟨si, msg⟩ := q
        have h16 : 16 ≤ (bytes (joinSplits cfg.Splits)).length := by
          rcases h with h | h | h | h
          · exact h
          · exact absurd hd h
          · exact absurd hu h
          · rw [hc] at h
            cases h
        have hh := hash_eq_some _ h16
        have hq2 : cfg.SlackURL = "" ∨ env.slackPanic cfg.SlackURL msg = none :=
          hq.imp id (fun f => f msg)
        cases hs : split env fs cfg.WorkingDirectory cfg.URL cfg.Splits si with
        | none =>
          have := split_workingPath env fs cfg.WorkingDirectory cfg.URL cfg.Splits si
          rw [hs, hh] at this
          cases this
        | some r =>
          simp [hu, hs, afterSend_quiet env _ _ _ hq2, removals, removals_append,
            removals_splitEvents]
          split_ifs <;> rfl
    · simp [hu, skipHook, removals]

/-- C3: with the split set of the end-to-end scenario the executed-split path
sends no removal at all: the slice expression in `split` panics after the start
notification, and the claimed payload stays in the in-flight list. -/
theorem iteration_short_split_set_no_removal :
    iteration (scenarioEnv "refs/heads/main" (fun _ => 0)) (fun _ => false)
        (scenarioCfg ["pkgA", "pkgB"]) (.ok (payloadFor "refs/heads/main"))
      = [Event.logInfo "Waiting for a new push to split...",
         Event.logInfo "Processing start",
         Event.sendSlack "" "Started: splitting modules for branch main",
         Event.panic] ∧
    removals (iteration (scenarioEnv "refs/heads/main" (fun _ => 0)) (fun _ => false)
        (scenarioCfg ["pkgA", "pkgB"]) (.ok (payloadFor "refs/heads/main"))) = [] := by
  constructor <;> decide

/-- C8: a payload that decodes and names another repository is skipped: the
iteration logs, sends one removal of the payload from the in-flight list, and
does nothing else (no directory, no shell, no notification), whatever the
reference is. -/
theorem unsupported_repository_skipped (env : Env) (fs : FS) (cfg : config) (hookJSON : String)
    (hdec : (env.unmarshal hookJSON).2 = none)
    (hurl : (env.unmarshal hookJSON).1.RepositoryURL ≠ cfg.URL) :
    iteration env fs cfg (.ok hookJSON)
      = [Event.logInfo "Waiting for a new push to split...",
         Event.logInfo "Processing start",
         Event.logInfo ("The repository " ++ (env.unmarshal hookJSON).1.RepositoryURL
           ++ " is not supported."),
         Event.lrem (processingKey cfg.RedisPrefix) 1 hookJSON] ∧
    removals (iteration env fs cfg (.ok hookJSON))
      = [(processingKey cfg.RedisPrefix, 1, hookJSON)] ∧
    executorInvoked (iteration env fs cfg (.ok hookJSON)) = false ∧
    notified (iteration env fs cfg (.ok hookJSON)) = false ∧
    (∀ db : Redis, applyEvents db (iteration env fs cfg (.ok hookJSON))
      = LRem (processingKey cfg.RedisPrefix) 1 hookJSON db) := by
  have h : iteration env fs cfg (.ok hookJSON)
      = [Event.logInfo "Waiting for a new push to split...",
         Event.logInfo "Processing start",
         Event.logInfo ("The repository " ++ (env.unmarshal hookJSON).1.RepositoryURL
           ++ " is not supported."),
         Event.lrem (processingKey cfg.RedisPrefix) 1 hookJSON] := by
    simp [iteration, processHook, hdec, hurl, skipHook]
  rw [h]
  exact ⟨rfl, rfl, rfl, rfl, fun _ => rfl⟩

/-- Witness for C8: a push to `refs/heads/main` of another repository. -/
theorem unsupported_repository_skipped_witness :
    removals (iteration (scenarioEnv "refs/heads/main" (fun _ => 0)) (fun _ => false)
        { WorkingDirectory := "/tmp/ws", URL := "https://x/z.git", Splits := ["pkgA", "pkgB"],
          SlackURL := "https://hooks/1", RedisPrefix := "subsplit" }
        (.ok (payloadFor "refs/heads/main")))
      = [("subsplit:processing", 1, payloadFor "refs/heads/main")] ∧
    notified (iteration (scenarioEnv "refs/heads/main" (fun _ => 0)) (fun _ => false)
        { WorkingDirectory := "/tmp/ws", URL := "https://x/z.git", Splits := ["pkgA", "pkgB"],
          SlackURL := "https://hooks/1", RedisPrefix := "subsplit" }
        (.ok (payloadFor "refs/heads/main"))) = false :=
  have h := unsupported_repository_skipped (scenarioEnv "refs/heads/main" (fun _ => 0))
    (fun _ => false)
    { WorkingDirectory := "/tmp/ws", URL := "https://x/z.git", Splits := ["pkgA", "pkgB"],
      SlackURL := "https://hooks/1", RedisPrefix := "subsplit" }
    (payloadFor "refs/heads/main") rfl (by decide)
  ⟨h.2.1, h.2.2.2.1⟩

/-- C9: when the claim fails the iteration still sends a removal to the
in-flight list, of the empty string that the failed call returned; an
empty-string payload held there is removed, so the list does not stay as it was. -/
theorem claim_error_issues_removal (env : Env) (fs : FS) (cfg : config) (err : String) :
    iteration env fs cfg (.error err)
      = [Event.logInfo "Waiting for a new push to split...",
         Event.logError ("Error while waiting for a message : " ++ err ++ ". Retrying..."),
         Event.lrem (processingKey cfg.RedisPrefix) 1 ""] ∧
    applyEvents (fun k => if k = processingKey cfg.RedisPrefix then ["", "job"] else [])
        (iteration env fs cfg (.error err)) (processingKey cfg.RedisPrefix) = ["job"] := by
  constructor
  · rfl
  · simp [iteration, skipHook, applyEvents, LRem, removeFirst]

/-! ## Facts about the queue -/

theorem incomingKey_ne_processingKey (p : String) : incomingKey p ≠ processingKey p := by
  intro h
  simp [incomingKey, processingKey, String.ext_iff] at h

theorem enqueueAll_incoming (p : String) (ps : List String) (db : Redis) :
    enqueueAll p ps db (incomingKey p) = ps.reverse ++ db (incomingKey p) ∧
    ∀ k, k ≠ incomingKey p → enqueueAll p ps db k = db k := by
  induction ps generalizing db with
  | nil => exact ⟨rfl, fun _ _ => rfl⟩
  | cons x xs ih =>
    have h := ih (enqueue p x db)
    simp only [enqueueAll, List.foldl_cons] at h ⊢
    constructor
    · rw [h.1]
      simp [enqueue, LPush]
    · intro k hk
      rw [h.2 k hk]
      simp [enqueue, LPush, hk]

/-- One claim takes the element at the tail of the intake list, puts it at the
head of the in-flight list, and touches nothing else. -/
theorem claim_step (p : String) (d : Redis) (rest : List String) (x : String)
    (h : d (incomingKey p) = rest ++ [x]) :
    ∃ d', claim p d = some (x, d') ∧ d' (incomingKey p) = rest ∧
      d' (processingKey p) = x :: d (processingKey p) ∧
      ∀ k, k ≠ incomingKey p → k ≠ processingKey p → d' k = d k := by
  have hne := incomingKey_ne_processingKey p
  have hl : (d (incomingKey p)).getLast? = some x := by simp [h]
  have hc : claim p d = some (x, fun k =>
      if k = processingKey p then
        x :: (if processingKey p = incomingKey p then (d (incomingKey p)).dropLast
          else d (processingKey p))
      else if k = incomingKey p then (d (incomingKey p)).dropLast else d k) := by
    simp only [claim, BRPopLPush, hl]
  refine ⟨_, hc, ?_, ?_, ?_⟩
  · simp [hne, h]
  · simp [hne.symm]
  · intro k h1 h2
    simp [h1, h2]

theorem claimMany_reverse (p : String) (ps : List String) (d : Redis)
    (h : d (incomingKey p) = ps.reverse) :
    ∃ d', claimMany p ps.length d = some (ps, d') ∧ d' (incomingKey p) = [] ∧
      d' (processingKey p) = ps.reverse ++ d (processingKey p) ∧
      ∀ k, k ≠ incomingKey p → k ≠ processingKey p → d' k = d k := by
  induction ps generalizing d with
  | nil => exact ⟨d, rfl, by simpa using h, rfl, fun _ _ _ => rfl⟩
  | cons x xs ih =>
    obtain ⟨d1, h1, h2, h3, h4⟩ := claim_step p d xs.reverse x (by simpa using h)
    obtain ⟨d2, g1, g2, g3, g4⟩ := ih d1 h2
    refine ⟨d2, ?_, g2, ?_, ?_⟩
    · simp [claimMany, h1, g1]
    · rw [g3, h3]
      simp
    · intro k k1 k2
      rw [g4 k k1 k2, h4 k k1 k2]

/-- C10: payloads enqueued in the order `p1 .. pn` on an empty intake list are
returned by `n` successive claims in that same order, ending with an empty
intake list and all of them in the in-flight list; and a claim on a non-empty
intake list moves exactly its oldest payload (the one at the tail) to the
in-flight list and leaves the other intake items, their order, and every other
key unchanged. -/
theorem queue_fifo (redisPreix : String) (ps : List String) (db : Redis)
    (h : db (incomingKey redisPreix) = []) :
    (∃ db', claimMany redisPreix ps.length (enqueueAll redisPreix ps db) = some (ps, db') ∧
      db' (incomingKey redisPreix) = [] ∧
      db' (processingKey redisPreix) = ps.reverse ++ db (processingKey redisPreix)) ∧
    (∀ (d : Redis) (rest : List String) (x : String),
      d (incomingKey redisPreix) = rest ++ [x] →
      ∃ d', claim redisPreix d = some (x, d') ∧
        d' (incomingKey redisPreix) = rest ∧
        d' (processingKey redisPreix) = x :: d (processingKey redisPreix) ∧
        ∀ k, k ≠ incomingKey redisPreix → k ≠ processingKey redisPreix → d' k = d k) := by
  have hne := incomingKey_ne_processingKey redisPreix
  constructor
  · have he := enqueueAll_incoming redisPreix ps db
    obtain ⟨d', h1, h2, h3, -⟩ := claimMany_reverse redisPreix ps (enqueueAll redisPreix ps db)
      (by rw [he.1, h]; simp)
    exact ⟨d', h1, h2, by rw [h3, he.2 _ hne.symm]⟩
  · intro d rest x hd
    exact claim_step redisPreix d rest x hd

/-- Witness for C10: three payloads on the lists of prefix `subsplit`. -/
theorem queue_fifo_witness :
    (claimMany "subsplit" 3 (enqueueAll "subsplit" ["p1", "p2", "p3"] (fun _ => []))).map Prod.fst
      = some ["p1", "p2", "p3"] := by
  obtain ⟨d, h, -⟩ := (queue_fifo "subsplit" ["p1", "p2", "p3"] (fun _ => []) rfl).1
  exact (congrArg (Option.map Prod.fst) h).trans rfl

end Subsplit
